import Mathlib

/-!
Verification of the instrumented heap sort in `src/pas.py` (class `HeapSort`).

The Python class keeps, per instance: `original_data` (a copy of the input),
`data` (the mutable working copy), a `reverse` flag, a `key` projection,
the counters `comparisons` and `swaps`, the step log `steps` (a list of full
snapshots of `data`, one appended after each swap), and `execution_time`
(an attribute that only exists after `sort()` has run; we model it as an
`Option Unit`, abstracting the wall-clock float to mere presence).

The embedding is a state-passing translation: every method becomes a pure
function on the state record `HeapSort`.  The recursive `_heapify` is given
a structural fuel argument (`heapifyF`); `heapify` instantiates the fuel
with `n - i`, which is shown sufficient (`heapifyF_fuel_irrelevant`), so
`heapify` satisfies the source's recursive equation.
-/

/-- State of one `HeapSort` instance, mirroring the fields set in
`HeapSort.__init__` plus the `execution_time` attribute that `sort()`
creates.  `α` is the element type, `β` the codomain of the key projection. -/
structure HeapSort (α β : Type) where
  original_data : List α
  data : List α
  reverse : Bool
  key : α → β
  comparisons : Nat
  swaps : Nat
  steps : List (List α)
  execution_time : Option Unit

variable {α β : Type}

/-- `HeapSort.__init__(data, reverse, key)`: both `original_data` and `data`
are copies of the input, counters start at zero, the step log is empty and
`execution_time` is not yet set. -/
def init (data : List α) (reverse : Bool) (key : α → β) : HeapSort α β :=
  { original_data := data, data := data, reverse := reverse, key := key,
    comparisons := 0, swaps := 0, steps := [], execution_time := none }

/-- Indexing `data[i]`.  All reads performed by the algorithm are in bounds,
so the `default` fallback of `List.getD` is never exercised on those reads. -/
def nthD [Inhabited α] (l : List α) (i : Nat) : α :=
  l.getD i default

/-- The simultaneous assignment
`self.data[i], self.data[j] = self.data[j], self.data[i]`:
both right-hand sides are read before either cell is written. -/
def swapL [Inhabited α] (l : List α) (i j : Nat) : List α :=
  (l.set i (nthD l j)).set j (nthD l i)

/-- The comparison expression of `_heapify`:
`(self.key(self.data[a]) > self.key(self.data[b])) ^ self.reverse`. -/
def keyGt [Inhabited α] [LinearOrder β] (s : HeapSort α β) (a b : Nat) : Bool :=
  Bool.xor (decide (s.key (nthD s.data a) > s.key (nthD s.data b))) s.reverse

/-- Value of the local variable `largest` after the left-child comparison of
`_heapify(n, i)`: it becomes `2*i+1` exactly when the left child is inside
the heap and the guarded comparison fires. -/
def selL [Inhabited α] [LinearOrder β] (s : HeapSort α β) (n i : Nat) : Nat :=
  if 2*i+1 < n ∧ keyGt s (2*i+1) i = true then 2*i+1 else i

/-- Value of `largest` after both child comparisons of `_heapify(n, i)`. -/
def sel [Inhabited α] [LinearOrder β] (s : HeapSort α β) (n i : Nat) : Nat :=
  if 2*i+2 < n ∧ keyGt s (2*i+2) (selL s n i) = true then 2*i+2 else selL s n i

/-- Number of comparison-counter increments one `_heapify(n, i)` call makes:
one for each child index that lies inside the heap of size `n`. -/
def cmpCount (n i : Nat) : Nat :=
  (if 2*i+1 < n then 1 else 0) + (if 2*i+2 < n then 1 else 0)

/-- `_heapify(n, i)` with structural fuel.  One call compares with the
children in range (adding `cmpCount n i` to `comparisons`), and if the
selected `largest` differs from `i` it increments `swaps`, swaps
`data[i]` with `data[largest]`, appends a snapshot of the new `data` to
`steps`, and recurses on `largest`. -/
def heapifyF [Inhabited α] [LinearOrder β] :
    Nat → HeapSort α β → Nat → Nat → HeapSort α β
  | 0, s, _, _ => s
  | fuel+1, s, n, i =>
    if sel s n i ≠ i then
      heapifyF fuel
        { s with comparisons := s.comparisons + cmpCount n i,
                 data := swapL s.data i (sel s n i),
                 swaps := s.swaps + 1,
                 steps := s.steps ++ [swapL s.data i (sel s n i)] } n (sel s n i)
    else { s with comparisons := s.comparisons + cmpCount n i }

/-- `_heapify(n, i)`.  Fuel `n - i` suffices because every recursive call
strictly increases the index while staying below `n`. -/
def heapify [Inhabited α] [LinearOrder β] (s : HeapSort α β) (n i : Nat) : HeapSort α β :=
  heapifyF (n - i) s n i

/-- The loop `for i in range(n//2 - 1, -1, -1): self._heapify(n, i)` of
`_build_heap`, running `heapify` at `i, i-1, ..., 0`. -/
def buildFrom [Inhabited α] [LinearOrder β] (n : Nat) :
    Nat → HeapSort α β → HeapSort α β
  | 0, s => heapify s n 0
  | i+1, s => buildFrom n i (heapify s n (i+1))

/-- `_build_heap()`: `n = len(self.data)`; the loop body runs for
`i = n//2 - 1, ..., 0`, i.e. not at all when `n//2 = 0`. -/
def build_heap [Inhabited α] [LinearOrder β] (s : HeapSort α β) : HeapSort α β :=
  if s.data.length / 2 = 0 then s
  else buildFrom s.data.length (s.data.length / 2 - 1) s

/-- The extraction loop `for i in range(n-1, 0, -1)` of `sort()`, running
for `i = m, m-1, ..., 1`: swap `data[0]` with `data[i]`, append a snapshot
of the new `data` to `steps` (without touching `swaps`), then
`_heapify(i, 0)`. -/
def extractFrom [Inhabited α] [LinearOrder β] : Nat → HeapSort α β → HeapSort α β
  | 0, s => s
  | i+1, s =>
      extractFrom i (heapify
        { s with data := swapL s.data 0 (i+1),
                 steps := s.steps ++ [swapL s.data 0 (i+1)] } (i+1) 0)

/-- `sort()` as a state transformer: build the heap, run the extraction
loop from `n-1` down to `1`, and set `execution_time`. -/
def sortState [Inhabited α] [LinearOrder β] (s : HeapSort α β) : HeapSort α β :=
  { extractFrom ((build_heap s).data.length - 1) (build_heap s) with
      execution_time := some () }

/-- The return value of `sort()`: the final `self.data`. -/
def sort [Inhabited α] [LinearOrder β] (s : HeapSort α β) : List α :=
  (sortState s).data

/-- A value of the statistics dictionary returned by `analyze()`: either a
natural number or the opaque wall-clock duration stored under `'time'`. -/
inductive StatVal where
  | num (n : Nat)
  | time
  deriving DecidableEq

/-- `analyze()`.  Accessing `self.execution_time` raises `AttributeError`
when `sort()` has never run; this is modelled by returning `none`.
Otherwise the dictionary literal of the source is returned, with its keys
in source order. -/
def analyze (s : HeapSort α β) : Option (List (String × StatVal)) :=
  match s.execution_time with
  | none => none
  | some _ => some
      [("data_size", StatVal.num s.data.length),
       ("comparisons", StatVal.num s.comparisons),
       ("swaps", StatVal.num s.swaps),
       ("time", StatVal.time),
       ("steps", StatVal.num s.steps.length)]

/-- Number of recursive self-invocations `_heapify(n, i)` performs
(its recursion depth); the state is evolved exactly as in `heapifyF`. -/
def heapifyCallsF [Inhabited α] [LinearOrder β] :
    Nat → HeapSort α β → Nat → Nat → Nat
  | 0, _, _, _ => 0
  | fuel+1, s, n, i =>
    if sel s n i ≠ i then
      1 + heapifyCallsF fuel
        { s with comparisons := s.comparisons + cmpCount n i,
                 data := swapL s.data i (sel s n i),
                 swaps := s.swaps + 1,
                 steps := s.steps ++ [swapL s.data i (sel s n i)] } n (sel s n i)
    else 0

/-- Recursion depth of `_heapify(n, i)` (fuel `n - i` suffices, as for
`heapify`). -/
def heapifyCalls [Inhabited α] [LinearOrder β] (s : HeapSort α β) (n i : Nat) : Nat :=
  heapifyCallsF (n - i) s n i

/-- `c` is a heap child of `p` in the implicit binary-tree layout. -/
def childOf (c p : Nat) : Prop :=
  c = 2*p+1 ∨ c = 2*p+2

/-- `Desc i j`: index `j` lies in the subtree rooted at index `i`. -/
inductive Desc : Nat → Nat → Prop where
  | refl (i : Nat) : Desc i i
  | step {i p c : Nat} : Desc i p → childOf c p → Desc i c

/-- The effective element order of the spec: `leE r k a b` says `a` may
precede `b` in the output, i.e. `k a ≤ k b` for an ascending sort
(`reverse = false`) and `k b ≤ k a` for a descending one. -/
def leE [LinearOrder β] (r : Bool) (k : α → β) (a b : α) : Prop :=
  if r = true then k b ≤ k a else k a ≤ k b

/-! ### Basic facts about indexing, `List.set` and `swapL` -/

lemma nthD_cons_succ [Inhabited α] (a : α) (l : List α) (i : Nat) :
    nthD (a :: l) (i+1) = nthD l i := rfl

lemma nthD_set_self [Inhabited α] :
    ∀ (l : List α) (i : Nat) (x : α), i < l.length → nthD (l.set i x) i = x := by
  intro l
  induction l with
  | nil => intro i x h; simp at h
  | cons a t ih =>
    intro i x h
    cases i with
    | zero => rfl
    | succ j =>
      have : j < t.length := by simpa using h
      simpa [List.set, nthD_cons_succ] using ih j x this

lemma nthD_set_ne [Inhabited α] :
    ∀ (l : List α) (i j : Nat) (x : α), i ≠ j → nthD (l.set i x) j = nthD l j := by
  intro l
  induction l with
  | nil => intro i j x _; simp [List.set]
  | cons a t ih =>
    intro i j x hij
    cases i with
    | zero =>
      cases j with
      | zero => exact absurd rfl hij
      | succ j2 => rfl
    | succ i2 =>
      cases j with
      | zero => rfl
      | succ j2 =>
        have : i2 ≠ j2 := fun h => hij (by rw [h])
        simpa [List.set, nthD_cons_succ] using ih i2 j2 x this

lemma length_swapL [Inhabited α] (l : List α) (i j : Nat) :
    (swapL l i j).length = l.length := by
  simp [swapL]

lemma nthD_swapL_left [Inhabited α] (l : List α) (i j : Nat)
    (hij : i ≠ j) (hi : i < l.length) :
    nthD (swapL l i j) i = nthD l j := by
  rw [swapL, nthD_set_ne _ _ _ _ (fun h => hij h.symm), nthD_set_self _ _ _ hi]

lemma nthD_swapL_right [Inhabited α] (l : List α) (i j : Nat)
    (hj : j < l.length) :
    nthD (swapL l i j) j = nthD l i := by
  rw [swapL, nthD_set_self]
  simpa using hj

lemma nthD_swapL_other [Inhabited α] (l : List α) (i j m : Nat)
    (hmi : m ≠ i) (hmj : m ≠ j) :
    nthD (swapL l i j) m = nthD l m := by
  rw [swapL, nthD_set_ne _ _ _ _ (fun h => hmj h.symm),
    nthD_set_ne _ _ _ _ (fun h => hmi h.symm)]

lemma set_nthD_perm [Inhabited α] :
    ∀ (l : List α) (j : Nat) (x : α), j < l.length →
      List.Perm (nthD l j :: l.set j x) (x :: l) := by
  intro l
  induction l with
  | nil => intro j x h; simp at h
  | cons a t ih =>
    intro j x h
    cases j with
    | zero => exact List.Perm.swap x a t
    | succ j2 =>
      have hj : j2 < t.length := by simpa using h
      have h1 : List.Perm (nthD t j2 :: a :: t.set j2 x)
          (a :: nthD t j2 :: t.set j2 x) := List.Perm.swap a (nthD t j2) _
      have h2 : List.Perm (a :: nthD t j2 :: t.set j2 x) (a :: x :: t) :=
        (ih j2 x hj).cons a
      have h3 : List.Perm (a :: x :: t) (x :: a :: t) := List.Perm.swap x a t
      exact (h1.trans h2).trans h3

lemma swapL_perm [Inhabited α] (l : List α) (i j : Nat)
    (hij : i ≠ j) (hi : i < l.length) (hj : j < l.length) :
    List.Perm (swapL l i j) l := by
  have hjlen : j < (l.set i (nthD l j)).length := by simpa using hj
  have h1 : List.Perm (nthD (l.set i (nthD l j)) j :: swapL l i j)
      (nthD l i :: l.set i (nthD l j)) := set_nthD_perm _ j (nthD l i) hjlen
  rw [nthD_set_ne _ _ _ _ hij] at h1
  have h2 : List.Perm (nthD l i :: l.set i (nthD l j)) (nthD l j :: l) :=
    set_nthD_perm l i (nthD l j) hi
  exact (h1.trans h2).cons_inv

lemma nthD_eq_get [Inhabited α] :
    ∀ (l : List α) (i : Nat) (h : i < l.length), nthD l i = l.get ⟨i, h⟩ := by
  intro l
  induction l with
  | nil => intro i h; simp at h
  | cons a t ih =>
    intro i h
    cases i with
    | zero => rfl
    | succ j => exact ih j (by simpa using h)

/-! ### The implicit binary-tree layout -/

lemma childOf_gt {c p : Nat} (h : childOf c p) : p < c := by
  rcases h with h | h <;> omega

lemma childOf_parent_eq {c p q : Nat} (hp : childOf c p) (hq : childOf c q) :
    p = q := by
  rcases hp with hp | hp <;> rcases hq with hq | hq <;> omega

lemma Desc.le {i j : Nat} (h : Desc i j) : i ≤ j := by
  induction h with
  | refl => exact Nat.le_refl _
  | step _ hc ih => exact Nat.le_trans ih (Nat.le_of_lt (childOf_gt hc))

lemma Desc.trans {i j m : Nat} (h1 : Desc i j) (h2 : Desc j m) : Desc i m := by
  induction h2 with
  | refl => exact h1
  | step _ hc ih => exact Desc.step ih hc

lemma Desc.of_child {c i : Nat} (h : childOf c i) : Desc i c :=
  Desc.step (Desc.refl i) h

lemma Desc.decomp {i c : Nat} (h : Desc i c) (hne : c ≠ i) :
    ∃ p, Desc i p ∧ childOf c p := by
  cases h with
  | refl => exact absurd rfl hne
  | step hp hc => exact ⟨_, hp, hc⟩

lemma not_desc_of_lt {i j : Nat} (h : j < i) : ¬ Desc i j :=
  fun hd => absurd hd.le (by omega)

lemma desc_zero : ∀ p : Nat, Desc 0 p := by
  intro p
  induction p using Nat.strong_induction_on with
  | _ p ih =>
    match p with
    | 0 => exact Desc.refl 0
    | q+1 =>
      have hq : (q+1-1)/2 < q+1 := by omega
      refine Desc.step (ih ((q+1-1)/2) hq) ?_
      unfold childOf; omega

lemma child_outside {t c p : Nat} (hc : Desc t c) (hp : childOf c p)
    (hnp : ¬ Desc t p) : c = t := by
  by_cases hct : c = t
  · exact hct
  · rcases hc.decomp hct with ⟨q, hq, hcq⟩
    exact absurd (childOf_parent_eq hp hcq ▸ hq) hnp

lemma not_desc_sibling {c l i : Nat} (hc : childOf c i) (hl : childOf l i)
    (hne : c ≠ l) : ¬ Desc l c := by
  intro hd
  have := child_outside hd hc (not_desc_of_lt (childOf_gt hl))
  exact hne this

/-! ### The effective order and the comparison expression -/

lemma leE_refl [LinearOrder β] (r : Bool) (k : α → β) (a : α) : leE r k a a := by
  unfold leE; split <;> exact le_refl _

lemma leE_trans [LinearOrder β] {r : Bool} {k : α → β} {a b c : α}
    (h1 : leE r k a b) (h2 : leE r k b c) : leE r k a c := by
  cases r with
  | false =>
    simp only [leE, Bool.false_eq_true, if_false] at *
    exact le_trans h1 h2
  | true =>
    simp only [leE, if_true] at *
    exact le_trans h2 h1

lemma keyGt_eq_true_le [Inhabited α] [LinearOrder β] {s : HeapSort α β}
    {r : Bool} {k : α → β} (hr : s.reverse = r) (hk : s.key = k) {a b : Nat}
    (h : keyGt s a b = true) :
    leE r k (nthD s.data b) (nthD s.data a) := by
  unfold keyGt at h
  rw [hr, hk] at h
  unfold leE
  cases r with
  | false =>
    simp only [Bool.xor_false, decide_eq_true_eq] at h
    simpa using le_of_lt h
  | true =>
    simp only [Bool.xor_true, Bool.not_eq_eq_eq_not, Bool.not_true,
      decide_eq_false_iff_not, not_lt] at h
    simpa using h

lemma keyGt_eq_false_le [Inhabited α] [LinearOrder β] {s : HeapSort α β}
    {r : Bool} {k : α → β} (hr : s.reverse = r) (hk : s.key = k) {a b : Nat}
    (h : keyGt s a b = false) :
    leE r k (nthD s.data a) (nthD s.data b) := by
  unfold keyGt at h
  rw [hr, hk] at h
  unfold leE
  cases r with
  | false =>
    simp only [Bool.xor_false, decide_eq_false_iff_not, not_lt] at h
    simpa using h
  | true =>
    simp only [Bool.xor_true, Bool.not_eq_eq_eq_not, Bool.not_false,
      decide_eq_true_eq] at h
    simpa using le_of_lt h

/-! ### Properties of the `largest` selection -/

lemma selL_cases [Inhabited α] [LinearOrder β] (s : HeapSort α β) (n i : Nat) :
    (selL s n i = i ∧ (2*i+1 < n → keyGt s (2*i+1) i = false)) ∨
    (selL s n i = 2*i+1 ∧ 2*i+1 < n ∧ keyGt s (2*i+1) i = true) := by
  unfold selL
  split_ifs with h
  · exact Or.inr ⟨rfl, h.1, h.2⟩
  · refine Or.inl ⟨rfl, fun hlt => ?_⟩
    rcases Bool.eq_false_or_eq_true (keyGt s (2*i+1) i) with ht | hf
    · exact absurd ⟨hlt, ht⟩ h
    · exact hf

lemma sel_cases [Inhabited α] [LinearOrder β] (s : HeapSort α β) (n i : Nat) :
    (sel s n i = selL s n i ∧ (2*i+2 < n → keyGt s (2*i+2) (selL s n i) = false)) ∨
    (sel s n i = 2*i+2 ∧ 2*i+2 < n ∧ keyGt s (2*i+2) (selL s n i) = true) := by
  unfold sel
  split_ifs with h
  · exact Or.inr ⟨rfl, h.1, h.2⟩
  · refine Or.inl ⟨rfl, fun hlt => ?_⟩
    rcases Bool.eq_false_or_eq_true (keyGt s (2*i+2) (selL s n i)) with ht | hf
    · exact absurd ⟨hlt, ht⟩ h
    · exact hf

lemma sel_range [Inhabited α] [LinearOrder β] {s : HeapSort α β} {n i : Nat}
    (h : sel s n i ≠ i) :
    i < sel s n i ∧ sel s n i < n ∧ childOf (sel s n i) i := by
  rcases sel_cases s n i with ⟨he, _⟩ | ⟨he, hlt, _⟩
  · rcases selL_cases s n i with ⟨hl, _⟩ | ⟨hl, hllt, _⟩
    · exact absurd (he.trans hl) h
    · rw [he, hl]
      exact ⟨by omega, hllt, Or.inl rfl⟩
  · rw [he]
    exact ⟨by omega, hlt, Or.inr rfl⟩

lemma sel_dom_self [Inhabited α] [LinearOrder β] {s : HeapSort α β}
    {r : Bool} {k : α → β} (hr : s.reverse = r) (hk : s.key = k) (n i : Nat) :
    leE r k (nthD s.data i) (nthD s.data (sel s n i)) := by
  have hL : leE r k (nthD s.data i) (nthD s.data (selL s n i)) := by
    rcases selL_cases s n i with ⟨hl, _⟩ | ⟨hl, _, ht⟩
    · rw [hl]; exact leE_refl r k _
    · rw [hl]; exact keyGt_eq_true_le hr hk ht
  rcases sel_cases s n i with ⟨he, _⟩ | ⟨he, _, ht⟩
  · rw [he]; exact hL
  · rw [he]; exact leE_trans hL (keyGt_eq_true_le hr hk ht)

lemma sel_dom_left [Inhabited α] [LinearOrder β] {s : HeapSort α β}
    {r : Bool} {k : α → β} (hr : s.reverse = r) (hk : s.key = k) {n i : Nat}
    (hlt : 2*i+1 < n) :
    leE r k (nthD s.data (2*i+1)) (nthD s.data (sel s n i)) := by
  have hL : leE r k (nthD s.data (2*i+1)) (nthD s.data (selL s n i)) := by
    rcases selL_cases s n i with ⟨hl, hf⟩ | ⟨hl, _, _⟩
    · rw [hl]; exact keyGt_eq_false_le hr hk (hf hlt)
    · rw [hl]; exact leE_refl r k _
  rcases sel_cases s n i with ⟨he, _⟩ | ⟨he, _, ht⟩
  · rw [he]; exact hL
  · rw [he]; exact leE_trans hL (keyGt_eq_true_le hr hk ht)

lemma sel_dom_right [Inhabited α] [LinearOrder β] {s : HeapSort α β}
    {r : Bool} {k : α → β} (hr : s.reverse = r) (hk : s.key = k) {n i : Nat}
    (hlt : 2*i+2 < n) :
    leE r k (nthD s.data (2*i+2)) (nthD s.data (sel s n i)) := by
  rcases sel_cases s n i with ⟨he, hf⟩ | ⟨he, _, _⟩
  · rw [he]; exact keyGt_eq_false_le hr hk (hf hlt)
  · rw [he]; exact leE_refl r k _

/-! ### Bounding a subtree by its root along parent-child chains -/

lemma descLe [Inhabited α] [LinearOrder β] (r : Bool) (k : α → β)
    (l : List α) (n t : Nat)
    (H : ∀ p c, Desc t p → childOf c p → c < n →
      leE r k (nthD l c) (nthD l p)) :
    ∀ q, Desc t q → q < n → leE r k (nthD l q) (nthD l t) := by
  intro q hq
  induction hq with
  | refl => intro _; exact leE_refl r k _
  | step hp hc ih =>
    intro hcn
    have hpn : _ < n := Nat.lt_trans (childOf_gt hc) hcn
    exact leE_trans (H _ _ hp hc hcn) (ih hpn)

/-! ### Preservation and frame properties of `heapifyF` -/

lemma sel_of_ge [Inhabited α] [LinearOrder β] (s : HeapSort α β) {n i : Nat}
    (h : n ≤ i) : sel s n i = i := by
  have hl : ¬ 2*i+1 < n := by omega
  have hr2 : ¬ 2*i+2 < n := by omega
  simp [sel, selL, hl, hr2]

lemma cmpCount_of_ge {n i : Nat} (h : n ≤ i) : cmpCount n i = 0 := by
  have hl : ¬ 2*i+1 < n := by omega
  have hr2 : ¬ 2*i+2 < n := by omega
  simp [cmpCount, hl, hr2]

lemma heapifyF_of_ge [Inhabited α] [LinearOrder β] :
    ∀ (fuel : Nat) (s : HeapSort α β) {n i : Nat}, n ≤ i →
      heapifyF fuel s n i = s := by
  intro fuel s n i h
  cases fuel with
  | zero => rfl
  | succ f => simp [heapifyF, sel_of_ge s h, cmpCount_of_ge h]

lemma heapifyF_fuel_irrelevant [Inhabited α] [LinearOrder β] :
    ∀ (f g : Nat) (s : HeapSort α β) (n i : Nat),
      n - i ≤ f → n - i ≤ g → heapifyF f s n i = heapifyF g s n i := by
  intro f
  induction f with
  | zero =>
    intro g s n i hf _
    have hni : n ≤ i := by omega
    rw [heapifyF_of_ge 0 s hni, heapifyF_of_ge g s hni]
  | succ f ih =>
    intro g s n i hf hg
    by_cases hni : n ≤ i
    · rw [heapifyF_of_ge _ s hni, heapifyF_of_ge g s hni]
    · cases g with
      | zero => omega
      | succ g2 =>
        simp only [heapifyF]
        by_cases hsel : sel s n i ≠ i
        · rw [if_pos hsel, if_pos hsel]
          obtain ⟨h1, h2, _⟩ := sel_range hsel
          exact ih g2 _ n (sel s n i) (by omega) (by omega)
        · rw [if_neg hsel, if_neg hsel]

lemma heapifyF_preserves [Inhabited α] [LinearOrder β] :
    ∀ (fuel : Nat) (s : HeapSort α β) (n i : Nat),
      (heapifyF fuel s n i).original_data = s.original_data ∧
      (heapifyF fuel s n i).reverse = s.reverse ∧
      (heapifyF fuel s n i).key = s.key ∧
      (heapifyF fuel s n i).data.length = s.data.length := by
  intro fuel
  induction fuel with
  | zero => intro s n i; exact ⟨rfl, rfl, rfl, rfl⟩
  | succ f ih =>
    intro s n i
    simp only [heapifyF]
    split_ifs with h
    · obtain ⟨h1, h2, h3, h4⟩ := ih _ n (sel s n i)
      exact ⟨h1, h2, h3, h4.trans (length_swapL _ _ _)⟩
    · exact ⟨rfl, rfl, rfl, rfl⟩

lemma heapifyF_perm [Inhabited α] [LinearOrder β] :
    ∀ (fuel : Nat) (s : HeapSort α β) (n i : Nat), n ≤ s.data.length →
      List.Perm (heapifyF fuel s n i).data s.data := by
  intro fuel
  induction fuel with
  | zero => intro s n i _; exact List.Perm.refl _
  | succ f ih =>
    intro s n i hlen
    simp only [heapifyF]
    split_ifs with h
    · obtain ⟨h1, h2, _⟩ := sel_range h
      have hperm : List.Perm (swapL s.data i (sel s n i)) s.data :=
        swapL_perm s.data i (sel s n i) (by omega) (by omega) (by omega)
      have hlen2 : n ≤ (swapL s.data i (sel s n i)).length := by
        rw [length_swapL]; exact hlen
      exact (ih _ n (sel s n i) hlen2).trans hperm
    · exact List.Perm.refl _

lemma heapifyF_frame_ge [Inhabited α] [LinearOrder β] :
    ∀ (fuel : Nat) (s : HeapSort α β) (n i j : Nat), n ≤ j →
      nthD (heapifyF fuel s n i).data j = nthD s.data j := by
  intro fuel
  induction fuel with
  | zero => intro s n i j _; rfl
  | succ f ih =>
    intro s n i j hj
    simp only [heapifyF]
    split_ifs with h
    · obtain ⟨h1, h2, _⟩ := sel_range h
      rw [ih _ n (sel s n i) j hj]
      exact nthD_swapL_other _ _ _ _ (by omega) (by omega)
    · rfl

lemma heapifyF_steps_swaps [Inhabited α] [LinearOrder β] :
    ∀ (fuel : Nat) (s : HeapSort α β) (n i : Nat),
      (heapifyF fuel s n i).steps.length + s.swaps
        = (heapifyF fuel s n i).swaps + s.steps.length := by
  intro fuel
  induction fuel with
  | zero => intro s n i; simp only [heapifyF]; omega
  | succ f ih =>
    intro s n i
    simp only [heapifyF]
    split_ifs with h
    · have h1 := ih { s with comparisons := s.comparisons + cmpCount n i, data := swapL s.data i (sel s n i), swaps := s.swaps + 1, steps := s.steps ++ [swapL s.data i (sel s n i)] } n (sel s n i)
      simp only [List.length_append] at h1
      simp only [List.length_singleton] at h1
      omega
    · simp only []
      omega

lemma heapifyF_getLast [Inhabited α] [LinearOrder β] :
    ∀ (fuel : Nat) (s : HeapSort α β) (n i : Nat),
      s.steps.getLast? = some s.data →
      (heapifyF fuel s n i).steps.getLast? = some (heapifyF fuel s n i).data := by
  intro fuel
  induction fuel with
  | zero => intro s n i h; exact h
  | succ f ih =>
    intro s n i h
    simp only [heapifyF]
    split_ifs with hs
    · exact ih _ n (sel s n i) (by simp)
    · exact h

/-! ### The sift-down specification of `_heapify` -/

lemma heapifyF_sift [Inhabited α] [LinearOrder β] (r : Bool) (k : α → β) :
    ∀ (fuel n i : Nat) (s : HeapSort α β),
      n - i ≤ fuel → i < n → n ≤ s.data.length →
      s.reverse = r → s.key = k →
      (∀ p c, Desc i p → p ≠ i → childOf c p → c < n →
        leE r k (nthD s.data c) (nthD s.data p)) →
      ((∀ j, ¬ Desc i j → nthD (heapifyF fuel s n i).data j = nthD s.data j) ∧
       (∀ p c, Desc i p → childOf c p → c < n →
         leE r k (nthD (heapifyF fuel s n i).data c)
           (nthD (heapifyF fuel s n i).data p)) ∧
       (∀ j, Desc i j → j < n → ∃ q, Desc i q ∧ q < n ∧
         nthD (heapifyF fuel s n i).data j = nthD s.data q)) := by
  intro fuel
  induction fuel with
  | zero => intro n i s hf hin _ _ _ _; omega
  | succ f ih =>
    intro n i s hf hin hlen hr hk Hsub
    simp only [heapifyF]
    split_ifs with hsel
    · -- a swap happens at (i, sel s n i), then recursion at sel s n i
      obtain ⟨h1, h2, hchild⟩ := sel_range hsel
      have hdesc_sel : Desc i (sel s n i) := Desc.of_child hchild
      have hd0 : nthD (swapL s.data i (sel s n i)) i = nthD s.data (sel s n i) :=
        nthD_swapL_left _ _ _ (by omega) (by omega)
      have hdL : nthD (swapL s.data i (sel s n i)) (sel s n i) = nthD s.data i :=
        nthD_swapL_right _ _ _ (by omega)
      have hdo : ∀ m, m ≠ i → m ≠ sel s n i →
          nthD (swapL s.data i (sel s n i)) m = nthD s.data m :=
        fun m hmi hms => nthD_swapL_other _ _ _ _ hmi hms
      have Hsub3 : ∀ p c, Desc (sel s n i) p → p ≠ sel s n i → childOf c p →
          c < n → leE r k (nthD (swapL s.data i (sel s n i)) c)
            (nthD (swapL s.data i (sel s n i)) p) := by
        intro p c hp hpne hc hcn
        have hple : sel s n i ≤ p := hp.le
        have hpgt : sel s n i < p := lt_of_le_of_ne hple (Ne.symm hpne)
        have hcgt : p < c := childOf_gt hc
        rw [hdo p (by omega) (by omega), hdo c (by omega) (by omega)]
        exact Hsub p c (Desc.trans hdesc_sel hp) (by omega) hc hcn
      obtain ⟨F1, HP, E1⟩ := ih n (sel s n i)
        { s with comparisons := s.comparisons + cmpCount n i,
                 data := swapL s.data i (sel s n i),
                 swaps := s.swaps + 1,
                 steps := s.steps ++ [swapL s.data i (sel s n i)] }
        (by omega) h2 (by rw [length_swapL]; exact hlen) hr hk Hsub3
      have oldLe : ∀ q, Desc (sel s n i) q → q < n →
          leE r k (nthD s.data q) (nthD s.data (sel s n i)) := by
        refine descLe r k s.data n (sel s n i) ?_
        intro p c hp hc hcn
        have hple : sel s n i ≤ p := hp.le
        exact Hsub p c (Desc.trans hdesc_sel hp) (by omega) hc hcn
      have rootLe : leE r k (nthD s.data i) (nthD s.data (sel s n i)) :=
        sel_dom_self hr hk n i
      refine ⟨?_, ?_, ?_⟩
      · -- frame outside the subtree of i
        intro j hj
        have hji : j ≠ i := fun h => hj (h ▸ Desc.refl i)
        have hjneL : j ≠ sel s n i := fun h => hj (h ▸ hdesc_sel)
        have hjL : ¬ Desc (sel s n i) j :=
          fun h2x => hj (Desc.trans hdesc_sel h2x)
        rw [F1 j hjL]
        exact hdo j hji hjneL
      · -- the heap property on the subtree of i
        intro p c hp hc hcn
        by_cases hpL : Desc (sel s n i) p
        · exact HP p c hpL hc hcn
        · have hvp := F1 p hpL
          by_cases hcL : Desc (sel s n i) c
          · have hcsel : c = sel s n i := child_outside hcL hc hpL
            have hpi : p = i := by
              apply childOf_parent_eq (hcsel ▸ hc) hchild
            obtain ⟨q, hqdesc, hqn, hqeq⟩ := E1 (sel s n i) (Desc.refl _) h2
            rw [hcsel, hqeq, hvp, hpi, hd0]
            by_cases hq : q = sel s n i
            · rw [hq, hdL]; exact rootLe
            · have hqgt : sel s n i < q :=
                lt_of_le_of_ne hqdesc.le (Ne.symm hq)
              rw [hdo q (by omega) hq]
              exact oldLe q hqdesc hqn
          · have hvc := F1 c hcL
            by_cases hpi : p = i
            · have hcne : c ≠ sel s n i := fun h => hcL (h ▸ Desc.refl _)
              have hcgt : p < c := childOf_gt hc
              rw [hpi] at hc
              rw [hvc, hvp, hpi, hdo c (by omega) hcne, hd0]
              rcases hc with hc | hc
              · rw [hc]; exact sel_dom_left hr hk (hc ▸ hcn)
              · rw [hc]; exact sel_dom_right hr hk (hc ▸ hcn)
            · have hpne : p ≠ sel s n i := fun h => hpL (h ▸ Desc.refl _)
              have hcne : c ≠ sel s n i := fun h => hcL (h ▸ Desc.refl _)
              have hip : i ≤ p := hp.le
              have hcgt : p < c := childOf_gt hc
              rw [hvc, hvp, hdo c (by omega) hcne, hdo p hpi hpne]
              exact Hsub p c hp hpi hc hcn
      · -- every slot of the subtree ends with a value drawn from the subtree
        intro j hj hjn
        by_cases hjL : Desc (sel s n i) j
        · obtain ⟨q, hq, hqn, hqe⟩ := E1 j hjL hjn
          by_cases hqsel : q = sel s n i
          · refine ⟨i, Desc.refl i, hin, ?_⟩
            rw [hqe, hqsel, hdL]
          · have hqgt : sel s n i < q := lt_of_le_of_ne hq.le (Ne.symm hqsel)
            refine ⟨q, Desc.trans hdesc_sel hq, hqn, ?_⟩
            rw [hqe, hdo q (by omega) hqsel]
        · have hje := F1 j hjL
          by_cases hji : j = i
          · refine ⟨sel s n i, hdesc_sel, h2, ?_⟩
            rw [hje, hji, hd0]
          · have hjneL : j ≠ sel s n i := fun h => hjL (h ▸ Desc.refl _)
            refine ⟨j, hj, hjn, ?_⟩
            rw [hje, hdo j hji hjneL]
    · -- no swap: `largest = i`, the state only gains comparison counts
      push_neg at hsel
      refine ⟨fun j _ => rfl, ?_, fun j hj hjn => ⟨j, hj, hjn, rfl⟩⟩
      intro p c hp hc hcn
      by_cases hpi : p = i
      · subst hpi
        rcases hc with hc | hc
        · have := sel_dom_left hr hk (hc ▸ hcn)
          rw [hsel] at this
          rw [hc]
          exact this
        · have := sel_dom_right hr hk (hc ▸ hcn)
          rw [hsel] at this
          rw [hc]
          exact this
      · exact Hsub p c hp hpi hc hcn

/-! ### `_build_heap` establishes the heap property -/

lemma heapify_step_inv [Inhabited α] [LinearOrder β] {r : Bool} {k : α → β}
    {s : HeapSort α β} {n i : Nat} (hin : i < n) (hlen : n ≤ s.data.length)
    (hr : s.reverse = r) (hk : s.key = k)
    (H : ∀ p c, i < p → childOf c p → c < n →
      leE r k (nthD s.data c) (nthD s.data p)) :
    ∀ p c, i ≤ p → childOf c p → c < n →
      leE r k (nthD (heapify s n i).data c) (nthD (heapify s n i).data p) := by
  have Hsub : ∀ p c, Desc i p → p ≠ i → childOf c p → c < n →
      leE r k (nthD s.data c) (nthD s.data p) := by
    intro p c hp hpne hc hcn
    exact H p c (lt_of_le_of_ne hp.le (Ne.symm hpne)) hc hcn
  obtain ⟨F1, HP, E1⟩ :=
    heapifyF_sift r k (n - i) n i s (le_refl _) hin hlen hr hk Hsub
  intro p c hp hc hcn
  unfold heapify
  by_cases hpd : Desc i p
  · exact HP p c hpd hc hcn
  · have hpi : p ≠ i := fun h => hpd (h ▸ Desc.refl i)
    have hcd : ¬ Desc i c := by
      intro hdc
      have hci : c = i := child_outside hdc hc hpd
      have hcgt : p < c := childOf_gt hc
      omega
    rw [F1 p hpd, F1 c hcd]
    exact H p c (lt_of_le_of_ne hp (fun h => hpi h.symm)) hc hcn

lemma buildFrom_heap [Inhabited α] [LinearOrder β] {r : Bool} {k : α → β} {n : Nat} :
    ∀ (i : Nat) (s : HeapSort α β), i < n → n ≤ s.data.length →
      s.reverse = r → s.key = k →
      (∀ p c, i < p → childOf c p → c < n →
        leE r k (nthD s.data c) (nthD s.data p)) →
      ∀ p c, childOf c p → c < n →
        leE r k (nthD (buildFrom n i s).data c) (nthD (buildFrom n i s).data p) := by
  intro i
  induction i with
  | zero =>
    intro s hin hlen hr hk H p c hc hcn
    simp only [buildFrom]
    exact heapify_step_inv hin hlen hr hk H p c (Nat.zero_le p) hc hcn
  | succ i2 ih =>
    intro s hin hlen hr hk H
    simp only [buildFrom]
    obtain ⟨hp1, hp2, hp3, hp4⟩ := heapifyF_preserves (n - (i2+1)) s n (i2+1)
    refine ih (heapify s n (i2+1)) (by omega) ?_ ?_ ?_ ?_
    · unfold heapify; rw [hp4]; exact hlen
    · unfold heapify; rw [hp2]; exact hr
    · unfold heapify; rw [hp3]; exact hk
    · intro p c hp hc hcn
      exact heapify_step_inv hin hlen hr hk H p c (by omega) hc hcn

lemma build_heap_heap [Inhabited α] [LinearOrder β] {r : Bool} {k : α → β}
    (s : HeapSort α β) (hr : s.reverse = r) (hk : s.key = k) :
    ∀ p c, childOf c p → c < s.data.length →
      leE r k (nthD (build_heap s).data c) (nthD (build_heap s).data p) := by
  intro p c hc hcn
  unfold build_heap
  split_ifs with h
  · exfalso
    rcases hc with hceq | hceq <;> omega
  · refine buildFrom_heap (s.data.length / 2 - 1) s (by omega) (le_refl _)
      hr hk ?_ p c hc hcn
    intro p2 c2 hp2 hc2 hcn2
    exfalso
    rcases hc2 with hceq | hceq <;> omega

lemma buildFrom_preserves [Inhabited α] [LinearOrder β] {n : Nat} :
    ∀ (i : Nat) (s : HeapSort α β),
      (buildFrom n i s).original_data = s.original_data ∧
      (buildFrom n i s).reverse = s.reverse ∧
      (buildFrom n i s).key = s.key ∧
      (buildFrom n i s).data.length = s.data.length := by
  intro i
  induction i with
  | zero => intro s; simp only [buildFrom]; exact heapifyF_preserves _ s n 0
  | succ i2 ih =>
    intro s
    simp only [buildFrom]
    obtain ⟨h1, h2, h3, h4⟩ := ih (heapify s n (i2+1))
    obtain ⟨g1, g2, g3, g4⟩ := heapifyF_preserves (n - (i2+1)) s n (i2+1)
    exact ⟨h1.trans g1, h2.trans g2, h3.trans g3, h4.trans g4⟩

lemma buildFrom_perm [Inhabited α] [LinearOrder β] {n : Nat} :
    ∀ (i : Nat) (s : HeapSort α β), n ≤ s.data.length →
      List.Perm (buildFrom n i s).data s.data := by
  intro i
  induction i with
  | zero => intro s hlen; simp only [buildFrom]; exact heapifyF_perm _ s n 0 hlen
  | succ i2 ih =>
    intro s hlen
    simp only [buildFrom]
    obtain ⟨g1, g2, g3, g4⟩ := heapifyF_preserves (n - (i2+1)) s n (i2+1)
    have hlen2 : n ≤ (heapify s n (i2+1)).data.length := by
      unfold heapify; rw [g4]; exact hlen
    exact (ih (heapify s n (i2+1)) hlen2).trans (heapifyF_perm _ s n (i2+1) hlen)

lemma buildFrom_steps_swaps [Inhabited α] [LinearOrder β] {n : Nat} :
    ∀ (i : Nat) (s : HeapSort α β),
      (buildFrom n i s).steps.length + s.swaps
        = (buildFrom n i s).swaps + s.steps.length := by
  intro i
  induction i with
  | zero => intro s; simp only [buildFrom]; exact heapifyF_steps_swaps _ s n 0
  | succ i2 ih =>
    intro s
    simp only [buildFrom]
    have h1 := ih (heapify s n (i2+1))
    have h2 := heapifyF_steps_swaps (n - (i2+1)) s n (i2+1)
    unfold heapify at h1 ⊢
    omega

lemma build_heap_preserves [Inhabited α] [LinearOrder β] (s : HeapSort α β) :
    (build_heap s).original_data = s.original_data ∧
    (build_heap s).reverse = s.reverse ∧
    (build_heap s).key = s.key ∧
    (build_heap s).data.length = s.data.length := by
  unfold build_heap
  split_ifs with h
  · exact ⟨rfl, rfl, rfl, rfl⟩
  · exact buildFrom_preserves _ s

lemma build_heap_perm [Inhabited α] [LinearOrder β] (s : HeapSort α β) :
    List.Perm (build_heap s).data s.data := by
  unfold build_heap
  split_ifs with h
  · exact List.Perm.refl _
  · exact buildFrom_perm _ s (le_refl _)

lemma build_heap_steps_swaps [Inhabited α] [LinearOrder β] (s : HeapSort α β) :
    (build_heap s).steps.length + s.swaps
      = (build_heap s).swaps + s.steps.length := by
  unfold build_heap
  split_ifs with h
  · omega
  · exact buildFrom_steps_swaps _ s

/-! ### `heapify`-level corollaries -/

lemma heapify_preserves [Inhabited α] [LinearOrder β] (s : HeapSort α β) (n i : Nat) :
    (heapify s n i).original_data = s.original_data ∧
    (heapify s n i).reverse = s.reverse ∧
    (heapify s n i).key = s.key ∧
    (heapify s n i).data.length = s.data.length :=
  heapifyF_preserves (n - i) s n i

lemma heapify_perm [Inhabited α] [LinearOrder β] (s : HeapSort α β) (n i : Nat)
    (hlen : n ≤ s.data.length) : List.Perm (heapify s n i).data s.data :=
  heapifyF_perm (n - i) s n i hlen

lemma heapify_frame_ge [Inhabited α] [LinearOrder β] (s : HeapSort α β) (n i j : Nat)
    (hj : n ≤ j) : nthD (heapify s n i).data j = nthD s.data j :=
  heapifyF_frame_ge (n - i) s n i j hj

lemma heapify_steps_swaps [Inhabited α] [LinearOrder β] (s : HeapSort α β) (n i : Nat) :
    (heapify s n i).steps.length + s.swaps = (heapify s n i).swaps + s.steps.length :=
  heapifyF_steps_swaps (n - i) s n i

lemma heapify_getLast [Inhabited α] [LinearOrder β] (s : HeapSort α β) (n i : Nat)
    (h : s.steps.getLast? = some s.data) :
    (heapify s n i).steps.getLast? = some (heapify s n i).data :=
  heapifyF_getLast (n - i) s n i h

lemma heapify_root [Inhabited α] [LinearOrder β] {r : Bool} {k : α → β}
    {s : HeapSort α β} {n : Nat} (hn : 0 < n) (hlen : n ≤ s.data.length)
    (hr : s.reverse = r) (hk : s.key = k)
    (Hsub : ∀ p c, p ≠ 0 → childOf c p → c < n →
      leE r k (nthD s.data c) (nthD s.data p)) :
    (∀ p c, childOf c p → c < n →
      leE r k (nthD (heapify s n 0).data c) (nthD (heapify s n 0).data p)) ∧
    (∀ j, j < n → ∃ q, q < n ∧ nthD (heapify s n 0).data j = nthD s.data q) := by
  have Hsub2 : ∀ p c, Desc 0 p → p ≠ 0 → childOf c p → c < n →
      leE r k (nthD s.data c) (nthD s.data p) := fun p c _ => Hsub p c
  obtain ⟨F1, HP, E1⟩ :=
    heapifyF_sift r k (n - 0) n 0 s (le_refl _) hn hlen hr hk Hsub2
  constructor
  · intro p c hc hcn
    exact HP p c (desc_zero p) hc hcn
  · intro j hjn
    obtain ⟨q, _, hqn, hqe⟩ := E1 j (desc_zero j) hjn
    exact ⟨q, hqn, hqe⟩

/-! ### The extraction loop of `sort()` -/

lemma extractFrom_preserves [Inhabited α] [LinearOrder β] :
    ∀ (m : Nat) (s : HeapSort α β),
      (extractFrom m s).original_data = s.original_data ∧
      (extractFrom m s).reverse = s.reverse ∧
      (extractFrom m s).key = s.key ∧
      (extractFrom m s).data.length = s.data.length := by
  intro m
  induction m with
  | zero => intro s; exact ⟨rfl, rfl, rfl, rfl⟩
  | succ i ih =>
    intro s
    simp only [extractFrom]
    obtain ⟨h1, h2, h3, h4⟩ := ih (heapify { s with data := swapL s.data 0 (i+1), steps := s.steps ++ [swapL s.data 0 (i+1)] } (i+1) 0)
    obtain ⟨g1, g2, g3, g4⟩ := heapify_preserves { s with data := swapL s.data 0 (i+1), steps := s.steps ++ [swapL s.data 0 (i+1)] } (i+1) 0
    refine ⟨h1.trans g1, h2.trans g2, h3.trans g3, (h4.trans g4).trans ?_⟩
    exact length_swapL _ _ _

lemma extractFrom_steps_swaps [Inhabited α] [LinearOrder β] :
    ∀ (m : Nat) (s : HeapSort α β),
      (extractFrom m s).steps.length + s.swaps
        = (extractFrom m s).swaps + s.steps.length + m := by
  intro m
  induction m with
  | zero => intro s; simp only [extractFrom]; omega
  | succ i ih =>
    intro s
    simp only [extractFrom]
    have h1 := ih (heapify { s with data := swapL s.data 0 (i+1), steps := s.steps ++ [swapL s.data 0 (i+1)] } (i+1) 0)
    have h2 := heapify_steps_swaps { s with data := swapL s.data 0 (i+1), steps := s.steps ++ [swapL s.data 0 (i+1)] } (i+1) 0
    simp only [List.length_append, List.length_singleton] at h1 h2
    omega

lemma extractFrom_getLast [Inhabited α] [LinearOrder β] :
    ∀ (m : Nat) (s : HeapSort α β), 1 ≤ m →
      (extractFrom m s).steps.getLast? = some (extractFrom m s).data := by
  intro m
  induction m with
  | zero => intro s h; omega
  | succ i ih =>
    intro s _
    simp only [extractFrom]
    cases i with
    | zero =>
      simp only [extractFrom]
      apply heapify_getLast
      simp
    | succ i2 => exact ih _ (by omega)

lemma extractFrom_sorted [Inhabited α] [LinearOrder β] {r : Bool} {k : α → β} {L : Nat} :
    ∀ (m : Nat) (s : HeapSort α β),
      s.reverse = r → s.key = k → s.data.length = L → m + 1 ≤ L →
      (∀ p c, childOf c p → c < m+1 →
        leE r k (nthD s.data c) (nthD s.data p)) →
      (∀ j j2, m+1 ≤ j → j ≤ j2 → j2 < L →
        leE r k (nthD s.data j) (nthD s.data j2)) →
      (∀ j j2, j < m+1 → m+1 ≤ j2 → j2 < L →
        leE r k (nthD s.data j) (nthD s.data j2)) →
      ∀ j j2, j ≤ j2 → j2 < L →
        leE r k (nthD (extractFrom m s).data j) (nthD (extractFrom m s).data j2) := by
  intro m
  induction m with
  | zero =>
    intro s hr hk hlen hmL HA HB HC j j2 hjj2 hj2L
    simp only [extractFrom]
    by_cases hj2 : j2 = 0
    · have hj : j = 0 := by omega
      rw [hj, hj2]; exact leE_refl r k _
    · by_cases hj : j = 0
      · exact HC j j2 (by omega) (by omega) hj2L
      · exact HB j j2 (by omega) hjj2 hj2L
  | succ i ih =>
    intro s hr hk hlen hmL HA HB HC
    simp only [extractFrom]
    set s1 : HeapSort α β := { s with data := swapL s.data 0 (i+1), steps := s.steps ++ [swapL s.data 0 (i+1)] } with hs1
    have hs1d : s1.data = swapL s.data 0 (i+1) := rfl
    have hs1r : s1.reverse = r := hr
    have hs1k : s1.key = k := hk
    have hL2 : i + 2 ≤ L := hmL
    have hslen : s.data.length = L := hlen
    have hs1len : s1.data.length = L := by
      rw [hs1d, length_swapL]; exact hlen
    have hd0 : nthD s1.data 0 = nthD s.data (i+1) := by
      rw [hs1d]; exact nthD_swapL_left _ _ _ (by omega) (by omega)
    have hdi : nthD s1.data (i+1) = nthD s.data 0 := by
      rw [hs1d]; exact nthD_swapL_right _ _ _ (by omega)
    have hdo : ∀ t, t ≠ 0 → t ≠ i+1 → nthD s1.data t = nthD s.data t := by
      intro t h1 h2; rw [hs1d]; exact nthD_swapL_other _ _ _ _ h1 h2
    have rootMax : ∀ q, q < i+2 → leE r k (nthD s.data q) (nthD s.data 0) := by
      intro q hq
      exact descLe r k s.data (i+2) 0 (fun p c _ hc hcn => HA p c hc hcn)
        q (desc_zero q) hq
    have Hsub1 : ∀ p c, p ≠ 0 → childOf c p → c < i+1 →
        leE r k (nthD s1.data c) (nthD s1.data p) := by
      intro p c hp hc hcn
      have hpc : p < c := childOf_gt hc
      rw [hdo c (by omega) (by omega), hdo p (by omega) (by omega)]
      exact HA p c hc (by omega)
    obtain ⟨HP2, E2⟩ := heapify_root (show 0 < i+1 by omega)
      (show i+1 ≤ s1.data.length by omega) hs1r hs1k Hsub1
    have hfr : ∀ t, i+1 ≤ t →
        nthD (heapify s1 (i+1) 0).data t = nthD s1.data t :=
      fun t ht => heapify_frame_ge s1 (i+1) 0 t ht
    obtain ⟨g1, g2, g3, g4⟩ := heapify_preserves s1 (i+1) 0
    have HB2 : ∀ j j2, i+1 ≤ j → j ≤ j2 → j2 < L →
        leE r k (nthD (heapify s1 (i+1) 0).data j)
          (nthD (heapify s1 (i+1) 0).data j2) := by
      intro j j2 hj hjj2 hj2L
      rw [hfr j hj, hfr j2 (by omega)]
      by_cases hj2e : j2 = i+1
      · have hje : j = i+1 := by omega
        rw [hje, hj2e, hdi]; exact leE_refl r k _
      · by_cases hje : j = i+1
        · rw [hje, hdi, hdo j2 (by omega) (by omega)]
          exact HC 0 j2 (by omega) (by omega) hj2L
        · rw [hdo j (by omega) (by omega), hdo j2 (by omega) (by omega)]
          exact HB j j2 (by omega) hjj2 hj2L
    have HC2 : ∀ j j2, j < i+1 → i+1 ≤ j2 → j2 < L →
        leE r k (nthD (heapify s1 (i+1) 0).data j)
          (nthD (heapify s1 (i+1) 0).data j2) := by
      intro j j2 hj hj2 hj2L
      obtain ⟨q, hq, hqe⟩ := E2 j hj
      rw [hqe, hfr j2 hj2]
      by_cases hq0 : q = 0
      · rw [hq0, hd0]
        by_cases hj2e : j2 = i+1
        · rw [hj2e, hdi]; exact rootMax (i+1) (by omega)
        · rw [hdo j2 (by omega) (by omega)]
          exact HC (i+1) j2 (by omega) (by omega) hj2L
      · rw [hdo q hq0 (by omega)]
        by_cases hj2e : j2 = i+1
        · rw [hj2e, hdi]; exact rootMax q (by omega)
        · rw [hdo j2 (by omega) (by omega)]
          exact HC q j2 (by omega) (by omega) hj2L
    exact ih (heapify s1 (i+1) 0) (g2.trans hs1r) (g3.trans hs1k)
      (g4.trans hs1len) (by omega) HP2 HB2 HC2

lemma extractFrom_perm [Inhabited α] [LinearOrder β] :
    ∀ (m : Nat) (s : HeapSort α β), m < s.data.length →
      List.Perm (extractFrom m s).data s.data := by
  intro m
  induction m with
  | zero => intro s _; exact List.Perm.refl _
  | succ i ih =>
    intro s hm
    simp only [extractFrom]
    set s1 : HeapSort α β := { s with data := swapL s.data 0 (i+1), steps := s.steps ++ [swapL s.data 0 (i+1)] } with hs1
    have hs1d : s1.data = swapL s.data 0 (i+1) := rfl
    have hswap : List.Perm s1.data s.data := by
      rw [hs1d]
      exact swapL_perm _ _ _ (by omega) (by omega) hm
    have hlen1 : s1.data.length = s.data.length := by
      rw [hs1d]; exact length_swapL _ _ _
    have hperm2 : List.Perm (heapify s1 (i+1) 0).data s1.data :=
      heapify_perm s1 (i+1) 0 (by omega)
    have hlen2 : (heapify s1 (i+1) 0).data.length = s.data.length :=
      ((heapify_preserves s1 (i+1) 0).2.2.2).trans hlen1
    have hih : List.Perm (extractFrom i (heapify s1 (i+1) 0)).data
        (heapify s1 (i+1) 0).data := by
      apply ih
      rw [hlen2]
      omega
    exact (hih.trans hperm2).trans hswap

/-! ### Assembly: facts about `sortState` -/

lemma sortState_data [Inhabited α] [LinearOrder β] (s : HeapSort α β) :
    (sortState s).data
      = (extractFrom ((build_heap s).data.length - 1) (build_heap s)).data := rfl

lemma sortState_steps [Inhabited α] [LinearOrder β] (s : HeapSort α β) :
    (sortState s).steps
      = (extractFrom ((build_heap s).data.length - 1) (build_heap s)).steps := rfl

lemma sortState_preserves [Inhabited α] [LinearOrder β] (s : HeapSort α β) :
    (sortState s).original_data = s.original_data ∧
    (sortState s).reverse = s.reverse ∧
    (sortState s).key = s.key ∧
    (sortState s).data.length = s.data.length := by
  obtain ⟨e1, e2, e3, e4⟩ :=
    extractFrom_preserves ((build_heap s).data.length - 1) (build_heap s)
  obtain ⟨b1, b2, b3, b4⟩ := build_heap_preserves s
  exact ⟨e1.trans b1, e2.trans b2, e3.trans b3, e4.trans b4⟩

lemma sortState_perm [Inhabited α] [LinearOrder β] (s : HeapSort α β) :
    List.Perm (sortState s).data s.data := by
  have hb := build_heap_perm s
  rw [sortState_data]
  by_cases h : (build_heap s).data.length = 0
  · rw [h]
    simp only [Nat.zero_sub, extractFrom]
    exact hb
  · exact (extractFrom_perm _ _ (by omega)).trans hb

lemma sortState_sorted [Inhabited α] [LinearOrder β] {r : Bool} {k : α → β}
    (s : HeapSort α β) (hr : s.reverse = r) (hk : s.key = k) :
    ∀ j j2, j ≤ j2 → j2 < s.data.length →
      leE r k (nthD (sortState s).data j) (nthD (sortState s).data j2) := by
  intro j j2 hjj2 hj2
  obtain ⟨b1, b2, b3, b4⟩ := build_heap_preserves s
  have hL0 : 0 < s.data.length := by omega
  rw [sortState_data]
  refine extractFrom_sorted (L := s.data.length)
    ((build_heap s).data.length - 1) (build_heap s)
    (b2.trans hr) (b3.trans hk) b4 (by omega) ?_ ?_ ?_ j j2 hjj2 hj2
  · intro p c hc hcn
    exact build_heap_heap s hr hk p c hc (by omega)
  · intro j3 j4 hj3 hj34 hj4
    omega
  · intro j3 j4 hj3 hj34 hj4
    omega

lemma sortState_steps_swaps [Inhabited α] [LinearOrder β] (s : HeapSort α β) :
    (sortState s).steps.length + s.swaps
      = (sortState s).swaps + s.steps.length + (s.data.length - 1) := by
  have he := extractFrom_steps_swaps ((build_heap s).data.length - 1) (build_heap s)
  have hb := build_heap_steps_swaps s
  have b4 := (build_heap_preserves s).2.2.2
  have hs1 : (sortState s).steps.length
      = (extractFrom ((build_heap s).data.length - 1) (build_heap s)).steps.length := rfl
  have hs2 : (sortState s).swaps
      = (extractFrom ((build_heap s).data.length - 1) (build_heap s)).swaps := rfl
  omega

/-! ### From pairwise order at indices to a chain on the list -/

lemma chain'_of_pairwise_nthD [Inhabited α] [LinearOrder β] {r : Bool} {k : α → β} :
    ∀ (l : List α),
      (∀ j, j + 1 < l.length → leE r k (nthD l j) (nthD l (j+1))) →
      List.Chain' (leE r k) l := by
  intro l
  induction l with
  | nil => intro _; exact List.chain'_nil
  | cons a t ih =>
    intro H
    cases t with
    | nil => exact List.chain'_singleton a
    | cons b t2 =>
      rw [List.chain'_cons]
      constructor
      · have := H 0 (by simp [List.length_cons])
        exact this
      · apply ih
        intro j hj
        have := H (j+1) (by simp only [List.length_cons] at hj ⊢; omega)
        exact this

/-! ### Recursion depth of `_heapify` -/

lemma heapifyCallsF_le [Inhabited α] [LinearOrder β] :
    ∀ (fuel n i : Nat) (s : HeapSort α β) (K : Nat),
      n ≤ 2^K * (i+1) → heapifyCallsF fuel s n i ≤ K := by
  intro fuel
  induction fuel with
  | zero => intro n i s K _; simp only [heapifyCallsF]; exact Nat.zero_le K
  | succ f ih =>
    intro n i s K hK
    simp only [heapifyCallsF]
    split_ifs with h
    · obtain ⟨h1, h2, hchild⟩ := sel_range h
      cases K with
      | zero =>
        exfalso
        simp only [pow_zero, one_mul] at hK
        omega
      | succ K2 =>
        have hsel1 : 2*(i+1) ≤ sel s n i + 1 := by
          rcases hchild with hc | hc <;> omega
        have hK2 : n ≤ 2^K2 * (sel s n i + 1) := by
          calc n ≤ 2^(K2+1) * (i+1) := hK
            _ = 2^K2 * (2*(i+1)) := by ring
            _ ≤ 2^K2 * (sel s n i + 1) := Nat.mul_le_mul_left _ hsel1
        have := ih n (sel s n i)
          { s with comparisons := s.comparisons + cmpCount n i, data := swapL s.data i (sel s n i), swaps := s.swaps + 1, steps := s.steps ++ [swapL s.data i (sel s n i)] }
          K2 hK2
        omega
    · exact Nat.zero_le K

lemma sortState_small [Inhabited α] [LinearOrder β] (s : HeapSort α β)
    (h : s.data.length ≤ 1) :
    sortState s = { s with execution_time := some () } := by
  unfold sortState build_heap
  have h2 : s.data.length / 2 = 0 := by omega
  rw [if_pos h2]
  have h3 : s.data.length - 1 = 0 := by omega
  rw [h3]
  rfl

/-! ### The claims -/

/-- C1: for every finite input sequence and every ordering policy
(`reverse` flag and `key` projection), `sort()` returns a permutation of the
input (equal as multisets), and every pair of consecutive output elements is
in effective order (`leE`): ascending under the key when `reverse` is false,
descending when `reverse` is true. -/
theorem sort_perm_and_chain [Inhabited α] [LinearOrder β]
    (data : List α) (reverse : Bool) (key : α → β) :
    List.Perm (sort (init data reverse key)) data ∧
    List.Chain' (leE reverse key) (sort (init data reverse key)) := by
  constructor
  · exact sortState_perm (init data reverse key)
  · apply chain'_of_pairwise_nthD
    intro j hj
    have h3 : (init data reverse key).data.length
        = (sort (init data reverse key)).length :=
      ((sortState_preserves (init data reverse key)).2.2.2).symm
    exact sortState_sorted (init data reverse key) rfl rfl j (j+1)
      (by omega) (by omega)

/-- C2 counterexample: sorting `[1, 2]` makes exactly one counted swap but
records two snapshots (the extraction loop appends without counting), so
`step_count == swaps` fails. -/
theorem step_count_ne_swaps_cx :
    (sortState (init [1, 2] false (fun x : Nat => x))).steps.length
      ≠ (sortState (init [1, 2] false (fun x : Nat => x))).swaps := by
  decide

/-- C2 amended: after `sort()` on a fresh instance, the number of step-log
entries equals the swap counter plus `max(n-1, 0)`: the extraction loop
appends one snapshot per iteration without incrementing `swaps`. -/
theorem step_count_eq_swaps_plus_moves [Inhabited α] [LinearOrder β]
    (data : List α) (reverse : Bool) (key : α → β) :
    (sortState (init data reverse key)).steps.length
      = (sortState (init data reverse key)).swaps + (data.length - 1) := by
  have h := sortState_steps_swaps (init data reverse key)
  have h1 : (init data reverse key).swaps = 0 := rfl
  have h2 : (init data reverse key).steps.length = 0 := rfl
  have h3 : (init data reverse key).data.length = data.length := rfl
  omega

/-- C3 counterexample: with `reverse = true` and the equal-key input
`[5, 5]`, the XOR-ed comparison evaluates to true on equal keys, so
`_heapify(2, 0)` selects the child as `largest` and performs a swap. -/
theorem equal_keys_reverse_selects_cx :
    sel (init [5, 5] true (fun x : Nat => x)) 2 0 = 1 ∧
    (heapify (init [5, 5] true (fun x : Nat => x)) 2 0).swaps = 1 := by
  constructor <;> decide

/-- C3 amended: on equal projected keys the comparison outcome equals the
`reverse` flag: with `reverse = false` the comparison does not select a new
largest (no swap from equal elements), but with `reverse = true` it does. -/
theorem keyGt_equal_keys [Inhabited α] [LinearOrder β]
    (s : HeapSort α β) (a b : Nat)
    (h : s.key (nthD s.data a) = s.key (nthD s.data b)) :
    keyGt s a b = s.reverse := by
  unfold keyGt
  rw [h]
  simp

/-- Witness for the amended C3 at the concrete instance `[5, 5]`,
`reverse = true`, identity key. -/
theorem keyGt_equal_keys_witness :
    ((init [5, 5] true (fun x : Nat => x)).key
        (nthD (init [5, 5] true (fun x : Nat => x)).data 1)
      = (init [5, 5] true (fun x : Nat => x)).key
        (nthD (init [5, 5] true (fun x : Nat => x)).data 0)) ∧
    keyGt (init [5, 5] true (fun x : Nat => x)) 1 0
      = (init [5, 5] true (fun x : Nat => x)).reverse :=
  ⟨by decide, keyGt_equal_keys (init [5, 5] true (fun x : Nat => x)) 1 0 (by decide)⟩

/-- C4 counterexample: the dictionary returned by `analyze()` has keys
`data_size, comparisons, swaps, time, steps`, not the claimed
`size, comparisons, swaps, elapsed_time, step_count`. -/
theorem analyze_field_names_cx :
    (analyze (sortState (init [1, 2] false (fun x : Nat => x)))).map
        (List.map Prod.fst)
      = some ["data_size", "comparisons", "swaps", "time", "steps"] ∧
    (["data_size", "comparisons", "swaps", "time", "steps"] : List String)
      ≠ ["size", "comparisons", "swaps", "elapsed_time", "step_count"] := by
  constructor
  · rfl
  · decide

/-- C4 amended: whenever `execution_time` is present, `analyze()` returns the
record with fields named exactly `data_size, comparisons, swaps, time,
steps`, where `data_size` is the working-sequence length and `steps` is the
number of step-log entries. -/
theorem analyze_record_fields (s : HeapSort α β) (u : Unit)
    (h : s.execution_time = some u) :
    analyze s = some
      [("data_size", StatVal.num s.data.length),
       ("comparisons", StatVal.num s.comparisons),
       ("swaps", StatVal.num s.swaps),
       ("time", StatVal.time),
       ("steps", StatVal.num s.steps.length)] := by
  unfold analyze
  rw [h]

/-- Witness for the amended C4 at a sorted concrete instance. -/
theorem analyze_record_fields_witness :
    (sortState (init [1, 2] false (fun x : Nat => x))).execution_time
      = some () ∧
    analyze (sortState (init [1, 2] false (fun x : Nat => x))) = some
      [("data_size", StatVal.num 2),
       ("comparisons", StatVal.num 1),
       ("swaps", StatVal.num 1),
       ("time", StatVal.time),
       ("steps", StatVal.num 2)] :=
  ⟨rfl, analyze_record_fields (sortState (init [1, 2] false (fun x : Nat => x))) () rfl⟩

/-- C5: calling `analyze()` before any `sort()` surfaces an explicit error
(`none`, modelling the `AttributeError` on the missing `execution_time`
attribute); it never returns a statistics record. -/
theorem analyze_before_sort_is_error (data : List α) (reverse : Bool)
    (key : α → β) :
    analyze (init data reverse key) = none := rfl

/-- C6: sorting the empty sequence returns `[]`, and sorting a singleton
returns it unchanged, with `comparisons = swaps = 0` in both cases, for
every ordering policy. -/
theorem sort_empty_and_singleton [Inhabited α] [LinearOrder β]
    (reverse : Bool) (key : α → β) (x : α) :
    (sort (init ([] : List α) reverse key) = [] ∧
     (sortState (init ([] : List α) reverse key)).comparisons = 0 ∧
     (sortState (init ([] : List α) reverse key)).swaps = 0) ∧
    (sort (init [x] reverse key) = [x] ∧
     (sortState (init [x] reverse key)).comparisons = 0 ∧
     (sortState (init [x] reverse key)).swaps = 0) := by
  have h0 : (init ([] : List α) reverse key).data.length ≤ 1 := by
    show ([] : List α).length ≤ 1
    simp
  have h1 : (init [x] reverse key).data.length ≤ 1 := by
    show [x].length ≤ 1
    simp
  have e0 := sortState_small (init ([] : List α) reverse key) h0
  have e1 := sortState_small (init [x] reverse key) h1
  refine ⟨⟨?_, ?_, ?_⟩, ?_, ?_, ?_⟩
  · show (sortState (init ([] : List α) reverse key)).data = []
    rw [e0]
    rfl
  · rw [e0]
    rfl
  · rw [e0]
    rfl
  · show (sortState (init [x] reverse key)).data = [x]
    rw [e1]
    rfl
  · rw [e1]
    rfl
  · rw [e1]
    rfl

/-- C7: after `sort()` on a fresh instance, if the step log is non-empty
then its last entry equals the final sorted working sequence. -/
theorem step_log_last_is_final [Inhabited α] [LinearOrder β]
    (data : List α) (reverse : Bool) (key : α → β)
    (h : (sortState (init data reverse key)).steps ≠ []) :
    (sortState (init data reverse key)).steps.getLast?
      = some (sortState (init data reverse key)).data := by
  match data with
  | [] =>
    have h0 : (init ([] : List α) reverse key).data.length ≤ 1 := by
      show ([] : List α).length ≤ 1
      simp
    exact absurd (by rw [sortState_small _ h0]; rfl) h
  | [a] =>
    have h1 : (init [a] reverse key).data.length ≤ 1 := by
      show [a].length ≤ 1
      simp
    exact absurd (by rw [sortState_small _ h1]; rfl) h
  | a :: b :: t =>
    have hlen : 2 ≤ (a :: b :: t).length := by
      simp only [List.length_cons]; omega
    have b4 := (build_heap_preserves (init (a :: b :: t) reverse key)).2.2.2
    have b5 : (init (a :: b :: t) reverse key).data.length
        = (a :: b :: t).length := rfl
    exact extractFrom_getLast _ _ (by omega)

/-- Witness for C7 at the concrete input `[1, 2]`, whose step log has two
entries. -/
theorem step_log_last_is_final_witness :
    (sortState (init [1, 2] false (fun x : Nat => x))).steps ≠ [] ∧
    (sortState (init [1, 2] false (fun x : Nat => x))).steps.getLast?
      = some (sortState (init [1, 2] false (fun x : Nat => x))).data :=
  ⟨by decide, step_log_last_is_final [1, 2] false (fun x : Nat => x) (by decide)⟩

/-- C8: for `0 ≤ i < n ≤ len(working sequence)`, `_heapify(n, i)`
terminates: every fuel bound of at least `n - i` yields the same fixed
point (each recursive call strictly increases the index below `n`), and
the recursion depth is at most `⌈log₂ n⌉`. -/
theorem heapify_terminates_with_log_depth [Inhabited α] [LinearOrder β]
    (s : HeapSort α β) (n i : Nat) (h1 : i < n) (h2 : n ≤ s.data.length) :
    (∀ fuel, n - i ≤ fuel → heapifyF fuel s n i = heapify s n i) ∧
    heapifyCalls s n i ≤ Nat.clog 2 n := by
  constructor
  · intro fuel hf
    exact heapifyF_fuel_irrelevant fuel (n - i) s n i hf (le_refl _)
  · refine heapifyCallsF_le (n - i) n i s (Nat.clog 2 n) ?_
    calc n ≤ 2 ^ Nat.clog 2 n := Nat.le_pow_clog (by norm_num) n
      _ = 2 ^ Nat.clog 2 n * 1 := (mul_one _).symm
      _ ≤ 2 ^ Nat.clog 2 n * (i+1) := Nat.mul_le_mul_left _ (by omega)

/-- Witness for C8 on a 3-element heap rooted at index 0. -/
theorem heapify_terminates_with_log_depth_witness :
    (0 < 3 ∧ 3 ≤ (init [1, 2, 3] false (fun x : Nat => x)).data.length) ∧
    ((∀ fuel, 3 - 0 ≤ fuel →
        heapifyF fuel (init [1, 2, 3] false (fun x : Nat => x)) 3 0
          = heapify (init [1, 2, 3] false (fun x : Nat => x)) 3 0) ∧
     heapifyCalls (init [1, 2, 3] false (fun x : Nat => x)) 3 0
        ≤ Nat.clog 2 3) :=
  ⟨⟨by decide, by decide⟩,
    heapify_terminates_with_log_depth (init [1, 2, 3] false (fun x : Nat => x))
      3 0 (by decide) (by decide)⟩

/-- C9: the stored original sequence equals the constructor input, and
`sort()` leaves `original_data` (as well as the `reverse` flag and the `key`
projection) unchanged: it mutates only the working sequence, the counters,
the step log and the timing state; `analyze()` is a pure read. -/
theorem original_data_never_mutated [Inhabited α] [LinearOrder β]
    (data : List α) (reverse : Bool) (key : α → β) (s : HeapSort α β) :
    (init data reverse key).original_data = data ∧
    (sortState s).original_data = s.original_data ∧
    (sortState s).reverse = s.reverse ∧
    (sortState s).key = s.key :=
  ⟨rfl, (sortState_preserves s).1, (sortState_preserves s).2.1,
    (sortState_preserves s).2.2.1⟩

/-- C10: after `sort()` on a fresh instance of length `n`, the step log has
exactly `swaps + max(n-1, 0)` entries: the extraction loop appends one
snapshot per iteration without incrementing the swap counter, which counts
only the swaps inside `_heapify`. -/
theorem step_count_eq_swaps_plus_extraction_snapshots [Inhabited α]
    [LinearOrder β] (data : List α) (reverse : Bool) (key : α → β) :
    (sortState (init data reverse key)).steps.length
      = (sortState (init data reverse key)).swaps + (data.length - 1) := by
  have h := sortState_steps_swaps (init data reverse key)
  have h1 : (init data reverse key).swaps = 0 := rfl
  have h2 : (init data reverse key).steps.length = 0 := rfl
  have h3 : (init data reverse key).data.length = data.length := rfl
  omega
